import Mathlib

/-
Shallow embedding of the numbering controller of `src/auto_numbering.py`
(class `AutoNumbering`).  A layer is the list of its features in
enumeration order; each feature carries its stable id and the value of the
one integer attribute field named "number" (`none` models NULL / unset).
The controller state also holds the undo history (a Python list used as a
stack: appended at the end, popped from the end) and the activation flag.
Host interactions are modelled explicitly: the selection is a list of
feature ids, and the success value the host returns from
`changeAttributeValue` is a boolean parameter (on failure the attribute is
unchanged).
-/

/-- A feature of the edited layer: its stable identifier and the value of
the "number" attribute field; `none` models an unset (NULL) attribute. -/
structure Feature where
  fid : Nat
  value : Option Int
deriving DecidableEq

/-- One entry of the undo history, as built in `number_selected`: the
feature id, the previous field value and the newly assigned value. -/
structure UndoRecord where
  feature_id : Nat
  old_value : Option Int
  new_value : Int
deriving DecidableEq

/-- The controller state relevant to numbering: the layer's features in
enumeration order, the undo history and the activation flag. -/
structure CtrlState where
  layer : List Feature
  history : List UndoRecord
  active : Bool
deriving DecidableEq

/-- The features of `layer` whose id belongs to the current selection
`sel`; models `self.layer.selectedFeatures()`. -/
def selectedFeatures (layer : List Feature) (sel : List Nat) : List Feature :=
  layer.filter (fun f => decide (f.fid ∈ sel))

/-- Write value `v` into the number field of the feature with id `e`;
models a successful `changeAttributeValue(e, field_idx, v)`. -/
def writeValue (layer : List Feature) (e : Nat) (v : Option Int) : List Feature :=
  layer.map (fun f => if f.fid = e then { f with value := v } else f)

/-- Read the number field of the feature with id `e`. -/
def fieldValue (layer : List Feature) (e : Nat) : Option (Option Int) :=
  (layer.find? (fun f => decide (f.fid = e))).map (fun f => f.value)

/-- The maximum-scan loop of `number_selected`, with accumulator `m`:
`if feat[field] is not None and feat[field] > max_number: max_number = feat[field]`. -/
def maxScanAux (m : Int) : List Feature → Int
  | [] => m
  | f :: fs =>
    match f.value with
    | some v => maxScanAux (if v > m then v else m) fs
    | none => maxScanAux m fs

/-- The full maximum scan of `number_selected`: `max_number = 0`, then the
loop over `self.layer.getFeatures()`. -/
def maxScan (layer : List Feature) : Int :=
  maxScanAux 0 layer

/-- The selection-changed handler `number_selected`.  `writeOk` is the
success value the host returns from `changeAttributeValue`; on failure the
layer is unchanged.  The undo record is appended before the write and kept
regardless of success, exactly as in the source (lines 146-191). -/
def number_selected (writeOk : Bool) (sel : List Nat) (s : CtrlState) : CtrlState :=
  if s.active = false then s
  else
    match selectedFeatures s.layer sel with
    | [feature] =>
      if (match feature.value with
          | some v => decide (v > 0)
          | none => false) then s
      else
        let next := maxScan s.layer + 1
        { s with
          layer := if writeOk then writeValue s.layer feature.fid (some next) else s.layer,
          history := s.history ++
            [{ feature_id := feature.fid, old_value := feature.value, new_value := next }] }
    | _ => s

/-- `undo_last` (lines 193-217): pop the most recent record (Python
`list.pop` takes the last element) and write its old value back; the pop
happens regardless of the write's success. -/
def undo_last (writeOk : Bool) (s : CtrlState) : CtrlState :=
  match s.history.getLast? with
  | none => s
  | some last =>
    { s with
      history := s.history.dropLast,
      layer := if writeOk then writeValue s.layer last.feature_id last.old_value else s.layer }

/-- `reset_numbers` (lines 219-244): when the user confirms, write `None`
into the field of every feature (the loop over `getFeatures()`) and clear
the history; when declined, change nothing. -/
def reset_numbers (confirmed : Bool) (s : CtrlState) : CtrlState :=
  if confirmed then
    { s with
      layer := (s.layer.map (fun f => f.fid)).foldl (fun ly e => writeValue ly e none) s.layer,
      history := [] }
  else s

/-- The test of the collection loop of `restart_numbering` (line 255):
a feature with a present, strictly positive number is kept, paired with
that number; anything else is skipped. -/
def numFun (f : Feature) : Option (Feature × Int) :=
  match f.value with
  | some v => if 0 < v then some (f, v) else none
  | none => none

/-- The positively numbered features, paired with their current number, in
enumeration order: the `numbered_features` list of `restart_numbering`. -/
def numberedFeatures (layer : List Feature) : List (Feature × Int) :=
  layer.filterMap numFun

/-- Stable insertion of `x` into a list sorted ascending by the stored
number: `x` goes before the first element whose number is not smaller. -/
def insertSorted (x : Feature × Int) : List (Feature × Int) → List (Feature × Int)
  | [] => [x]
  | y :: ys => if x.2 ≤ y.2 then x :: y :: ys else y :: insertSorted x ys

/-- Stable ascending sort by the stored number; extensionally the unique
stable sort, hence the behaviour of Python's `list.sort(key=...)` at
line 262. -/
def sortByNumber : List (Feature × Int) → List (Feature × Int)
  | [] => []
  | x :: xs => insertSorted x (sortByNumber xs)

/-- The renumbering loop of `restart_numbering` (lines 265-272): assign
`i`, `i+1`, ... to the listed features in order. -/
def applyRenum (i : Int) (items : List (Feature × Int)) (layer : List Feature) : List Feature :=
  match items with
  | [] => layer
  | x :: xs => applyRenum (i + 1) xs (writeValue layer x.1.fid (some i))

/-- `restart_numbering` (lines 246-272): collect the positively numbered
features, stable-sort them by current number, and reassign 1, 2, ... in
that order.  The history is not touched. -/
def restart_numbering (s : CtrlState) : CtrlState :=
  { s with layer := applyRenum 1 (sortByNumber (numberedFeatures s.layer)) s.layer }

/-- Modelled from the spec: the literal reading of the sentence on the
next number, `1 + max(field value over all features, treating missing or
None as 0, with the max defaulting to 0 for an empty collection)` - the
default 0 applies only to the empty collection. -/
def specMaxLiteral (layer : List Feature) : Int :=
  match layer.map (fun f => f.value.getD 0) with
  | [] => 0
  | v :: vs => vs.foldl max v

/-- The clamped maximum the code actually computes: the fold of `max`
over the treated field values started at 0. -/
def clampedMax (layer : List Feature) : Int :=
  (layer.map (fun f => f.value.getD 0)).foldl max 0

/-! Basic facts about the modelled host primitives.  The cons-step lemmas
unfold each primitive one feature at a time. -/

theorem writeValue_cons (f : Feature) (fs : List Feature) (e : Nat) (v : Option Int) :
    writeValue (f :: fs) e v =
      (if f.fid = e then { f with value := v } else f) :: writeValue fs e v := rfl

theorem fieldValue_cons (f : Feature) (fs : List Feature) (e : Nat) :
    fieldValue (f :: fs) e = if f.fid = e then some f.value else fieldValue fs e := by
  by_cases h : f.fid = e
  · rw [if_pos h]
    unfold fieldValue
    rw [List.find?_cons_of_pos _ (by simpa using h)]
    rfl
  · rw [if_neg h]
    unfold fieldValue
    rw [List.find?_cons_of_neg _ (by simpa using h)]

theorem selectedFeatures_cons (f : Feature) (fs : List Feature) (sel : List Nat) :
    selectedFeatures (f :: fs) sel =
      if f.fid ∈ sel then f :: selectedFeatures fs sel else selectedFeatures fs sel := by
  by_cases h : f.fid ∈ sel
  · rw [if_pos h]
    unfold selectedFeatures
    rw [List.filter_cons_of_pos (by simpa using h)]
  · rw [if_neg h]
    unfold selectedFeatures
    rw [List.filter_cons_of_neg (by simpa using h)]

theorem feature_update_eq (f : Feature) (v : Option Int) (h : f.value = v) :
    ({ f with value := v } : Feature) = f := by
  cases f
  simp_all

theorem writeValue_fids (L : List Feature) (e : Nat) (v : Option Int) :
    (writeValue L e v).map (fun f => f.fid) = L.map (fun f => f.fid) := by
  induction L with
  | nil => rfl
  | cons f fs ih =>
    rw [writeValue_cons]
    by_cases h : f.fid = e
    · simp only [if_pos h, List.map_cons, ih]
    · simp only [if_neg h, List.map_cons, ih]

theorem fieldValue_writeValue_self (L : List Feature) (e : Nat) (v : Option Int)
    (h : e ∈ L.map (fun f => f.fid)) :
    fieldValue (writeValue L e v) e = some v := by
  induction L with
  | nil => simp at h
  | cons f fs ih =>
    rw [writeValue_cons]
    by_cases hf : f.fid = e
    · rw [if_pos hf, fieldValue_cons, if_pos hf]
    · rw [if_neg hf, fieldValue_cons, if_neg hf]
      apply ih
      rcases List.mem_map.mp h with ⟨g, hg, hge⟩
      rcases List.mem_cons.mp hg with h1 | h1
      · exact absurd (h1 ▸ hge) hf
      · exact List.mem_map.mpr ⟨g, h1, hge⟩

theorem fieldValue_writeValue_ne (L : List Feature) (e e' : Nat) (v : Option Int)
    (h : e' ≠ e) :
    fieldValue (writeValue L e v) e' = fieldValue L e' := by
  induction L with
  | nil => rfl
  | cons f fs ih =>
    rw [writeValue_cons]
    by_cases hf : f.fid = e
    · have hne : ¬ ({ f with value := v } : Feature).fid = e' := by
        show ¬ f.fid = e'
        intro hc
        exact h (hc ▸ hf ▸ rfl)
      rw [if_pos hf, fieldValue_cons, if_neg hne, fieldValue_cons,
        if_neg (fun hc => h ((hf ▸ hc : e = e')).symm ), ih]
    · rw [if_neg hf, fieldValue_cons, fieldValue_cons, ih]

theorem writeValue_writeValue_self (L : List Feature) (e : Nat) (v w : Option Int) :
    writeValue (writeValue L e v) e w = writeValue L e w := by
  induction L with
  | nil => rfl
  | cons f fs ih =>
    by_cases hf : f.fid = e
    · rw [writeValue_cons, if_pos hf, writeValue_cons,
        if_pos (show ({ f with value := v } : Feature).fid = e from hf), ih,
        writeValue_cons, if_pos hf]
    · rw [writeValue_cons, if_neg hf, writeValue_cons, if_neg hf, ih,
        writeValue_cons, if_neg hf]

theorem writeValue_eq_self (L : List Feature) (e : Nat) (v : Option Int)
    (h : ∀ f ∈ L, f.fid = e → f.value = v) :
    writeValue L e v = L := by
  induction L with
  | nil => rfl
  | cons f fs ih =>
    rw [writeValue_cons]
    have tail : writeValue fs e v = fs := ih (fun g hg => h g (List.mem_cons_of_mem f hg))
    by_cases hf : f.fid = e
    · rw [if_pos hf, tail, feature_update_eq f v (h f (List.mem_cons_self f fs) hf)]
    · rw [if_neg hf, tail]

theorem selectedFeatures_writeValue_ne (L : List Feature) (e e' : Nat) (v : Option Int)
    (h : e ≠ e') :
    selectedFeatures (writeValue L e v) [e'] = selectedFeatures L [e'] := by
  induction L with
  | nil => rfl
  | cons f fs ih =>
    rw [writeValue_cons]
    by_cases hf : f.fid = e
    · have h1 : ({ f with value := v } : Feature).fid ∉ ([e'] : List Nat) := by
        show f.fid ∉ [e']
        rw [List.mem_singleton]
        intro hc
        exact h (hf ▸ hc)
      have h2 : f.fid ∉ ([e'] : List Nat) := by
        rw [List.mem_singleton]
        intro hc
        exact h (hf ▸ hc)
      rw [if_pos hf, selectedFeatures_cons, if_neg h1, selectedFeatures_cons, if_neg h2, ih]
    · rw [if_neg hf, selectedFeatures_cons, selectedFeatures_cons, ih]

theorem find?_eq_of_filter_eq {α : Type} (p : α → Bool) :
    ∀ (L : List α) (f : α), L.filter p = [f] → L.find? p = some f := by
  intro L
  induction L with
  | nil => intro f h; simp at h
  | cons a as ih =>
    intro f h
    by_cases ha : p a
    · rw [List.filter_cons_of_pos ha] at h
      injection h with h1 h2
      rw [List.find?_cons_of_pos _ ha, h1]
    · rw [List.filter_cons_of_neg (by simpa using ha)] at h
      rw [List.find?_cons_of_neg _ (by simpa using ha)]
      exact ih f h

theorem selected_singleton (L : List Feature) (e : Nat) (f : Feature)
    (h : selectedFeatures L [e] = [f]) :
    f.fid = e ∧ f ∈ L ∧ fieldValue L e = some f.value := by
  have hmem : f ∈ L.filter (fun g => decide (g.fid ∈ [e])) := by
    rw [selectedFeatures] at h
    rw [h]
    exact List.mem_singleton.mpr rfl
  have h1 : f ∈ L ∧ (decide (f.fid ∈ [e]) = true) := List.mem_filter.mp hmem
  have hfid : f.fid = e := by simpa using h1.2
  refine ⟨hfid, h1.1, ?_⟩
  have hpred : (fun g : Feature => decide (g.fid ∈ [e])) = (fun g : Feature => decide (g.fid = e)) := by
    funext g
    simp
  have hfind : L.find? (fun g => decide (g.fid = e)) = some f := by
    apply find?_eq_of_filter_eq
    rw [← hpred]
    exact h
  simp [fieldValue, hfind]

/-! Facts about the maximum scan. -/

theorem maxScanAux_cons_some (m v : Int) (f : Feature) (fs : List Feature)
    (hv : f.value = some v) :
    maxScanAux m (f :: fs) = maxScanAux (if v > m then v else m) fs := by
  rw [maxScanAux, hv]

theorem maxScanAux_cons_none (m : Int) (f : Feature) (fs : List Feature)
    (hv : f.value = none) :
    maxScanAux m (f :: fs) = maxScanAux m fs := by
  rw [maxScanAux, hv]

theorem le_maxScanAux : ∀ (L : List Feature) (m : Int), m ≤ maxScanAux m L := by
  intro L
  induction L with
  | nil => intro m; exact le_refl m
  | cons f fs ih =>
    intro m
    cases hv : f.value with
    | none => rw [maxScanAux_cons_none m f fs hv]; exact ih m
    | some v =>
      rw [maxScanAux_cons_some m v f fs hv]
      by_cases hvm : v > m
      · rw [if_pos hvm]
        exact le_trans (le_of_lt hvm) (ih v)
      · rw [if_neg hvm]
        exact ih m

theorem maxScanAux_le : ∀ (L : List Feature) (m k : Int), m ≤ k →
    (∀ f ∈ L, ∀ v, f.value = some v → v ≤ k) → maxScanAux m L ≤ k := by
  intro L
  induction L with
  | nil => intro m k hm _; exact hm
  | cons f fs ih =>
    intro m k hm hall
    have htail : ∀ g ∈ fs, ∀ v, g.value = some v → v ≤ k :=
      fun g hg => hall g (List.mem_cons_of_mem f hg)
    cases hv : f.value with
    | none =>
      rw [maxScanAux_cons_none m f fs hv]
      exact ih m k hm htail
    | some v =>
      rw [maxScanAux_cons_some m v f fs hv]
      by_cases hvm : v > m
      · rw [if_pos hvm]
        exact ih v k (hall f (List.mem_cons_self f fs) v hv) htail
      · rw [if_neg hvm]
        exact ih m k hm htail

theorem value_le_maxScanAux : ∀ (L : List Feature) (m : Int) (f : Feature) (v : Int),
    f ∈ L → f.value = some v → v ≤ maxScanAux m L := by
  intro L
  induction L with
  | nil => intro m f v hf _; exact absurd hf (List.not_mem_nil f)
  | cons g gs ih =>
    intro m f v hf hv
    rcases List.mem_cons.mp hf with h1 | h1
    · subst h1
      rw [maxScanAux_cons_some m v f gs hv]
      by_cases hvm : v > m
      · rw [if_pos hvm]
        exact le_maxScanAux gs v
      · rw [if_neg hvm]
        exact le_trans (not_lt.mp hvm) (le_maxScanAux gs m)
    · cases hg : g.value with
      | none =>
        rw [maxScanAux_cons_none m g gs hg]
        exact ih m f v h1 hv
      | some w =>
        rw [maxScanAux_cons_some m w g gs hg]
        exact ih _ f v h1 hv

theorem maxScan_nonneg (L : List Feature) : 0 ≤ maxScan L :=
  le_maxScanAux L 0

theorem maxScanAux_eq_clamped : ∀ (L : List Feature) (m : Int), 0 ≤ m →
    maxScanAux m L = (L.map (fun f => f.value.getD 0)).foldl max m := by
  intro L
  induction L with
  | nil => intro m _; rfl
  | cons f fs ih =>
    intro m hm
    rw [List.map_cons, List.foldl_cons]
    cases hv : f.value with
    | none =>
      rw [maxScanAux_cons_none m f fs hv]
      have h0 : max m ((none : Option Int).getD 0) = m := max_eq_left hm
      rw [h0]
      exact ih m hm
    | some v =>
      rw [maxScanAux_cons_some m v f fs hv]
      have hif : (if v > m then v else m) = max m v := by
        rcases le_or_lt v m with h | h
        · rw [if_neg (not_lt.mpr h), max_eq_left h]
        · rw [if_pos h, max_eq_right (le_of_lt h)]
      rw [hif]
      have hg : ((some v : Option Int).getD 0) = v := rfl
      rw [hg]
      exact ih (max m v) (le_trans hm (le_max_left m v))

theorem maxScan_eq_clampedMax (L : List Feature) : maxScan L = clampedMax L :=
  maxScanAux_eq_clamped L 0 (le_refl 0)

/-! The assignment path of `number_selected`: when the controller is
active, exactly one feature is selected and that feature is not yet
positively numbered, the handler pushes one undo record and (on a
successful write) stores the scanned maximum plus one. -/

theorem number_selected_eq_assign (w : Bool) (sel : List Nat) (s : CtrlState) (f : Feature)
    (hact : s.active = true)
    (hsel : selectedFeatures s.layer sel = [f])
    (hval : ∀ v, f.value = some v → v ≤ 0) :
    number_selected w sel s =
      { s with
        layer := if w then writeValue s.layer f.fid (some (maxScan s.layer + 1)) else s.layer,
        history := s.history ++
          [{ feature_id := f.fid, old_value := f.value, new_value := maxScan s.layer + 1 }] } := by
  unfold number_selected
  rw [hact, hsel]
  cases hv : f.value with
  | none => simp [hv]
  | some v =>
    have hnp : ¬ v > 0 := not_lt.mpr (hval v hv)
    simp [hv, hnp]

theorem selected_mem (L : List Feature) (sel : List Nat) (f : Feature)
    (h : selectedFeatures L sel = [f]) : f ∈ L := by
  apply List.mem_of_mem_filter (p := fun g => decide (g.fid ∈ sel))
  rw [selectedFeatures] at h
  rw [h]
  exact List.mem_singleton.mpr rfl

theorem number_selected_eq_assign_true (sel : List Nat) (s : CtrlState) (f : Feature)
    (hact : s.active = true)
    (hsel : selectedFeatures s.layer sel = [f])
    (hval : ∀ v, f.value = some v → v ≤ 0) :
    number_selected true sel s =
      { s with
        layer := writeValue s.layer f.fid (some (maxScan s.layer + 1)),
        history := s.history ++
          [{ feature_id := f.fid, old_value := f.value, new_value := maxScan s.layer + 1 }] } := by
  rw [number_selected_eq_assign true sel s f hact hsel hval]
  simp

theorem number_selected_eq_assign_false (sel : List Nat) (s : CtrlState) (f : Feature)
    (hact : s.active = true)
    (hsel : selectedFeatures s.layer sel = [f])
    (hval : ∀ v, f.value = some v → v ≤ 0) :
    number_selected false sel s =
      { s with
        history := s.history ++
          [{ feature_id := f.fid, old_value := f.value, new_value := maxScan s.layer + 1 }] } := by
  rw [number_selected_eq_assign false sel s f hact hsel hval]
  simp

theorem undo_last_of_concat (s : CtrlState) (H : List UndoRecord) (r : UndoRecord)
    (hh : s.history = H ++ [r]) :
    undo_last true s =
      { s with history := H, layer := writeValue s.layer r.feature_id r.old_value } := by
  unfold undo_last
  rw [hh, List.getLast?_concat, List.dropLast_concat]
  simp

/-- C8: `number_selected` leaves every field value and the undo stack
unchanged when the activation flag is false, when the selection size is 0
or greater than 1, or when the single selected feature already has a
positive field value. -/
theorem number_selected_noop (w : Bool) (sel : List Nat) (s : CtrlState)
    (h : s.active = false ∨
         (selectedFeatures s.layer sel).length = 0 ∨
         1 < (selectedFeatures s.layer sel).length ∨
         (∃ f v, selectedFeatures s.layer sel = [f] ∧ f.value = some v ∧ 0 < v)) :
    number_selected w sel s = s := by
  unfold number_selected
  rcases h with h | h | h | ⟨f, v, hsel, hv, hpos⟩
  · simp [h]
  · rw [List.length_eq_zero.mp h]
    by_cases ha : s.active = false <;> simp [ha]
  · have hgt : ∃ a b t, selectedFeatures s.layer sel = a :: b :: t := by
      cases hS : selectedFeatures s.layer sel with
      | nil => rw [hS] at h; simp at h
      | cons a t =>
        cases t with
        | nil => rw [hS] at h; simp at h
        | cons b t' => exact ⟨a, b, t', rfl⟩
    rcases hgt with ⟨a, b, t, hS⟩
    rw [hS]
    by_cases ha : s.active = false <;> simp [ha]
  · rw [hsel]
    by_cases ha : s.active = false <;> simp [ha, hv, hpos]

/-- C8 witness: a single already-numbered selected feature is left
untouched. -/
theorem number_selected_noop_witness :
    number_selected true [0]
      { layer := [{ fid := 0, value := some 5 }], history := [], active := true } =
      { layer := [{ fid := 0, value := some 5 }], history := [], active := true } :=
  number_selected_noop true [0]
    { layer := [{ fid := 0, value := some 5 }], history := [], active := true }
    (Or.inr (Or.inr (Or.inr ⟨{ fid := 0, value := some 5 }, 5, by decide, rfl, by decide⟩)))

/-- C9: `restart_numbering` never modifies the undo stack - the history
after the call is exactly the history before it. -/
theorem restart_numbering_keeps_history (s : CtrlState) :
    (restart_numbering s).history = s.history := rfl

theorem foldl_writeValue_none : ∀ (l : List Nat) (L : List Feature),
    (∀ f ∈ L, f.fid ∈ l ∨ f.value = none) →
    l.foldl (fun ly e => writeValue ly e none) L =
      L.map (fun f => { f with value := none }) := by
  intro l
  induction l with
  | nil =>
    intro L h
    rw [List.foldl_nil]
    have hpt : ∀ f ∈ L, ({ f with value := none } : Feature) = f := by
      intro f hf
      rcases h f hf with h1 | h1
      · exact absurd h1 (List.not_mem_nil f.fid)
      · exact feature_update_eq f none h1
    rw [List.map_congr_left hpt, List.map_id']
  | cons e rest ih =>
    intro L h
    rw [List.foldl_cons]
    have hcond : ∀ f ∈ writeValue L e none, f.fid ∈ rest ∨ f.value = none := by
      intro f hf
      rcases List.mem_map.mp hf with ⟨g, hg, hge⟩
      by_cases hfid : g.fid = e
      · rw [if_pos hfid] at hge
        exact Or.inr (hge ▸ rfl)
      · rw [if_neg hfid] at hge
        rcases h g hg with h1 | h1
        · rcases List.mem_cons.mp h1 with h2 | h2
          · exact absurd (hge ▸ h2 : f.fid = e) (hge ▸ hfid)
          · exact Or.inl (hge ▸ h2)
        · exact Or.inr (hge ▸ h1)
    rw [ih (writeValue L e none) hcond]
    unfold writeValue
    rw [List.map_map]
    apply List.map_congr_left
    intro f _
    by_cases hfid : f.fid = e <;> simp [hfid]

theorem reset_layer_values (s : CtrlState) :
    (reset_numbers true s).layer = s.layer.map (fun f => { f with value := none }) := by
  unfold reset_numbers
  simp only [if_true]
  apply foldl_writeValue_none
  intro f hf
  exact Or.inl (List.mem_map.mpr ⟨f, hf, rfl⟩)

/-- C7: a confirmed reset unsets the number field of every feature and
clears the undo stack; a declined reset changes nothing; after a confirmed
reset any sequence of undo calls is a no-op because the stack is empty. -/
theorem reset_numbers_spec (s : CtrlState) :
    (∀ f ∈ (reset_numbers true s).layer, f.value = none) ∧
    (reset_numbers true s).history = [] ∧
    reset_numbers false s = s ∧
    (∀ ws : List Bool, ws.foldl (fun t w => undo_last w t) (reset_numbers true s) =
      reset_numbers true s) := by
  have hemptyhist : (reset_numbers true s).history = [] := by
    unfold reset_numbers
    simp
  refine ⟨?_, hemptyhist, by unfold reset_numbers; simp, ?_⟩
  · intro f hf
    rw [reset_layer_values] at hf
    rcases List.mem_map.mp hf with ⟨g, _, hge⟩
    rw [← hge]
  · have hid : ∀ t : CtrlState, t.history = [] → ∀ w, undo_last w t = t := by
      intro t ht w
      unfold undo_last
      rw [ht]
      rfl
    intro ws
    induction ws with
    | nil => rfl
    | cons w ws ih => rw [List.foldl_cons, hid _ hemptyhist w, ih]

/-- C3 counterexample: on a layer with one unnumbered feature the host
reports a failed write, yet the undo record is on the stack afterwards -
the code appends to the history before the write and never removes it. -/
theorem undo_record_pushed_despite_failed_write :
    (number_selected false [0]
      { layer := [{ fid := 0, value := none }], history := [], active := true }).history =
      [{ feature_id := 0, old_value := none, new_value := 1 }] ∧
    ({ layer := [{ fid := 0, value := none }], history := [], active := true } :
      CtrlState).history = [] := by
  constructor <;> rfl

/-- C3 amended: an undo record is pushed exactly when the assignment path
is reached (controller active, single selection, selected feature not
positively numbered), before the write and regardless of the success the
host reports; on a failed write the record stays on the stack. -/
theorem number_selected_pushes_record (w : Bool) (sel : List Nat) (s : CtrlState) (f : Feature)
    (hact : s.active = true)
    (hsel : selectedFeatures s.layer sel = [f])
    (hval : ∀ v, f.value = some v → v ≤ 0) :
    (number_selected w sel s).history =
      s.history ++
        [{ feature_id := f.fid, old_value := f.value, new_value := maxScan s.layer + 1 }] := by
  rw [number_selected_eq_assign w sel s f hact hsel hval]

/-- C3 amended witness: the record is pushed although the write failed. -/
theorem number_selected_pushes_record_witness :
    (number_selected false [7]
      { layer := [{ fid := 7, value := some 0 }], history := [], active := true }).history =
      ([] : List UndoRecord) ++
        [{ feature_id := 7, old_value := some 0,
           new_value := maxScan [{ fid := 7, value := some 0 }] + 1 }] :=
  number_selected_pushes_record false [7]
    { layer := [{ fid := 7, value := some 0 }], history := [], active := true }
    { fid := 7, value := some 0 } rfl (by decide)
    (by intro v hv; injection hv with hv; omega)

/-- C2 counterexample: with one feature whose field value is -1 (present
and non-positive, so the assignment path runs), the code writes 1, while
1 plus the spec's maximum as literally stated is 0. -/
theorem next_value_differs_from_literal_spec :
    fieldValue (number_selected true [0]
      { layer := [{ fid := 0, value := some (-1) }], history := [], active := true }).layer 0 =
      some (some 1) ∧
    specMaxLiteral [{ fid := 0, value := some (-1) }] + 1 = 0 := by
  constructor <;> decide

/-- C2 amended: when `number_selected` performs an assignment and the host
reports the write succeeded, the stored value equals 1 plus the maximum of
0 and the field values over all features (missing or None treated as 0) -
the scan starts at 0, so the maximum is clamped below by 0. -/
theorem number_selected_writes_clamped_next (sel : List Nat) (s : CtrlState) (f : Feature)
    (hact : s.active = true)
    (hsel : selectedFeatures s.layer sel = [f])
    (hval : ∀ v, f.value = some v → v ≤ 0) :
    fieldValue (number_selected true sel s).layer f.fid =
      some (some (1 + clampedMax s.layer)) := by
  rw [number_selected_eq_assign_true sel s f hact hsel hval]
  have hmem : f.fid ∈ s.layer.map (fun g => g.fid) :=
    List.mem_map.mpr ⟨f, selected_mem s.layer sel f hsel, rfl⟩
  rw [show ({ s with
        layer := writeValue s.layer f.fid (some (maxScan s.layer + 1)),
        history := s.history ++
          [{ feature_id := f.fid, old_value := f.value,
             new_value := maxScan s.layer + 1 }] } : CtrlState).layer =
      writeValue s.layer f.fid (some (maxScan s.layer + 1)) from rfl]
  rw [fieldValue_writeValue_self s.layer f.fid _ hmem, maxScan_eq_clampedMax,
    Int.add_comm (clampedMax s.layer) 1]

/-- C2 amended witness: a layer holding a negative value and an unset
value; the clamped maximum is 0 and the written value is 1. -/
theorem number_selected_writes_clamped_next_witness :
    fieldValue (number_selected true [1]
      { layer := [{ fid := 0, value := some (-2) }, { fid := 1, value := none }],
        history := [], active := true }).layer 1 =
      some (some (1 +
        clampedMax [{ fid := 0, value := some (-2) }, { fid := 1, value := none }])) :=
  number_selected_writes_clamped_next [1]
    { layer := [{ fid := 0, value := some (-2) }, { fid := 1, value := none }],
      history := [], active := true }
    { fid := 1, value := none } rfl (by decide) (by intro v hv; injection hv)

/-- C10: the assignment path always produces a value of at least 1: the
pushed record's new value is the scanned maximum plus one, the scan starts
at 0 and only ever raises the running maximum, and on a successful write
that value is what the field holds. -/
theorem number_selected_writes_positive (w : Bool) (sel : List Nat) (s : CtrlState) (f : Feature)
    (hact : s.active = true)
    (hsel : selectedFeatures s.layer sel = [f])
    (hval : ∀ v, f.value = some v → v ≤ 0) :
    ∃ r : UndoRecord, (number_selected w sel s).history = s.history ++ [r] ∧
      1 ≤ r.new_value ∧
      (w = true →
        fieldValue (number_selected w sel s).layer f.fid = some (some r.new_value)) := by
  refine ⟨{ feature_id := f.fid, old_value := f.value, new_value := maxScan s.layer + 1 },
    ?_, ?_, ?_⟩
  · rw [number_selected_eq_assign w sel s f hact hsel hval]
  · have h0 := maxScan_nonneg s.layer
    show 1 ≤ maxScan s.layer + 1
    omega
  · intro hw
    subst hw
    rw [number_selected_eq_assign_true sel s f hact hsel hval]
    have hmem : f.fid ∈ s.layer.map (fun g => g.fid) :=
      List.mem_map.mpr ⟨f, selected_mem s.layer sel f hsel, rfl⟩
    exact fieldValue_writeValue_self s.layer f.fid _ hmem

/-- C10 witness: existing field values are negative, yet the assigned
value is positive. -/
theorem number_selected_writes_positive_witness :
    ∃ r : UndoRecord,
      (number_selected true [1]
        { layer := [{ fid := 0, value := some (-3) }, { fid := 1, value := none }],
          history := [], active := true }).history = [] ++ [r] ∧
      1 ≤ r.new_value ∧
      (true = true →
        fieldValue (number_selected true [1]
          { layer := [{ fid := 0, value := some (-3) }, { fid := 1, value := none }],
            history := [], active := true }).layer 1 = some (some r.new_value)) :=
  number_selected_writes_positive true [1]
    { layer := [{ fid := 0, value := some (-3) }, { fid := 1, value := none }],
      history := [], active := true }
    { fid := 1, value := none } rfl (by decide) (by intro v hv; injection hv)

/-- C4: `undo_last` is a strict, stack-ordered inverse of assignment.
A successful assignment to the selected feature followed by `undo_last`
restores that feature's previous field value and the previous history;
after assigning to `f1` then `f2`, the first `undo_last` restores `f2`'s
prior value while `f1` keeps its assigned value, and the second restores
`f1`'s prior value - never the reverse order. -/
theorem undo_last_inverse (s : CtrlState) (e1 e2 : Nat) (f1 f2 : Feature)
    (hact : s.active = true)
    (h1 : selectedFeatures s.layer [e1] = [f1])
    (h2 : selectedFeatures s.layer [e2] = [f2])
    (hne : e1 ≠ e2)
    (hv1 : ∀ v, f1.value = some v → v ≤ 0)
    (hv2 : ∀ v, f2.value = some v → v ≤ 0) :
    (fieldValue (undo_last true (number_selected true [e1] s)).layer e1 =
        fieldValue s.layer e1 ∧
      (undo_last true (number_selected true [e1] s)).history = s.history) ∧
    (fieldValue (undo_last true (number_selected true [e2]
        (number_selected true [e1] s))).layer e2 = fieldValue s.layer e2 ∧
      fieldValue (undo_last true (number_selected true [e2]
        (number_selected true [e1] s))).layer e1 =
        some (some (maxScan s.layer + 1)) ∧
      fieldValue (undo_last true (undo_last true (number_selected true [e2]
        (number_selected true [e1] s)))).layer e1 = fieldValue s.layer e1 ∧
      fieldValue (undo_last true (undo_last true (number_selected true [e2]
        (number_selected true [e1] s)))).layer e2 = fieldValue s.layer e2 ∧
      (undo_last true (undo_last true (number_selected true [e2]
        (number_selected true [e1] s)))).history = s.history) := by
  obtain ⟨hfid1, hmem1, hread1⟩ := selected_singleton s.layer e1 f1 h1
  obtain ⟨hfid2, hmem2, hread2⟩ := selected_singleton s.layer e2 f2 h2
  have hin1 : e1 ∈ s.layer.map (fun g => g.fid) := List.mem_map.mpr ⟨f1, hmem1, hfid1⟩
  have hin2 : e2 ∈ s.layer.map (fun g => g.fid) := List.mem_map.mpr ⟨f2, hmem2, hfid2⟩
  set n1 := maxScan s.layer + 1 with hn1
  have hs1 : number_selected true [e1] s =
      { s with
        layer := writeValue s.layer e1 (some n1),
        history := s.history ++
          [{ feature_id := e1, old_value := f1.value, new_value := n1 }] } := by
    rw [number_selected_eq_assign_true [e1] s f1 hact h1 hv1, hfid1]
  constructor
  · -- single assignment and undo
    rw [hs1]
    rw [undo_last_of_concat _ s.history { feature_id := e1, old_value := f1.value, new_value := n1 } rfl]
    refine ⟨?_, rfl⟩
    show fieldValue (writeValue (writeValue s.layer e1 (some n1)) e1 f1.value) e1 =
      fieldValue s.layer e1
    rw [writeValue_writeValue_self, fieldValue_writeValue_self s.layer e1 f1.value hin1, hread1]
  · -- two assignments, two undos
    have hsel2 : selectedFeatures (writeValue s.layer e1 (some n1)) [e2] = [f2] := by
      rw [selectedFeatures_writeValue_ne s.layer e1 e2 (some n1) hne, h2]
    set L1 := writeValue s.layer e1 (some n1) with hL1
    set n2 := maxScan L1 + 1 with hn2
    set H1 := s.history ++ [{ feature_id := e1, old_value := f1.value, new_value := n1 }]
      with hH1
    have hs2 : number_selected true [e2] (number_selected true [e1] s) =
        { s with
          layer := writeValue L1 e2 (some n2),
          history := H1 ++
            [{ feature_id := e2, old_value := f2.value, new_value := n2 }] } := by
      rw [hs1]
      have hstep := number_selected_eq_assign_true [e2]
        { s with layer := L1, history := H1 } f2 hact hsel2 hv2
      rw [hstep, hfid2]
    rw [hs2]
    rw [undo_last_of_concat _ _ { feature_id := e2, old_value := f2.value, new_value := n2 } rfl]
    set L2 := writeValue L1 e2 (some n2) with hL2
    have hin1w : e1 ∈ L2.map (fun g => g.fid) := by
      rw [hL2, writeValue_fids, hL1, writeValue_fids]
      exact hin1
    have hin2w : e2 ∈ L2.map (fun g => g.fid) := by
      rw [hL2, writeValue_fids, hL1, writeValue_fids]
      exact hin2
    have hu1layer : fieldValue (writeValue L2 e2 f2.value) e2 = fieldValue s.layer e2 := by
      rw [fieldValue_writeValue_self L2 e2 f2.value hin2w, hread2]
    have hu1e1 : fieldValue (writeValue L2 e2 f2.value) e1 = some (some n1) := by
      rw [fieldValue_writeValue_ne _ e2 e1 _ hne, hL2,
        fieldValue_writeValue_ne _ e2 e1 _ hne, hL1,
        fieldValue_writeValue_self s.layer e1 (some n1) hin1]
    refine ⟨hu1layer, hu1e1, ?_⟩
    rw [undo_last_of_concat _ s.history { feature_id := e1, old_value := f1.value, new_value := n1 } rfl]
    have hin1w2 : e1 ∈ (writeValue L2 e2 f2.value).map (fun g => g.fid) := by
      rw [writeValue_fids]
      exact hin1w
    refine ⟨?_, ?_, rfl⟩
    · show fieldValue (writeValue (writeValue L2 e2 f2.value) e1 f1.value) e1 =
        fieldValue s.layer e1
      rw [fieldValue_writeValue_self _ e1 f1.value hin1w2, hread1]
    · show fieldValue (writeValue (writeValue L2 e2 f2.value) e1 f1.value) e2 =
        fieldValue s.layer e2
      rw [fieldValue_writeValue_ne _ e1 e2 _ (fun hc => hne hc.symm), hu1layer]

/-- C4 witness: two unnumbered features; assign both, then undo twice. -/
theorem undo_last_inverse_witness :
    (fieldValue (undo_last true (number_selected true [0]
        { layer := [{ fid := 0, value := none }, { fid := 1, value := none }],
          history := [], active := true })).layer 0 =
        fieldValue [{ fid := 0, value := none }, { fid := 1, value := none }] 0 ∧
      (undo_last true (number_selected true [0]
        { layer := [{ fid := 0, value := none }, { fid := 1, value := none }],
          history := [], active := true })).history = []) ∧
    (fieldValue (undo_last true (number_selected true [1] (number_selected true [0]
        { layer := [{ fid := 0, value := none }, { fid := 1, value := none }],
          history := [], active := true }))).layer 1 =
        fieldValue [{ fid := 0, value := none }, { fid := 1, value := none }] 1 ∧
      fieldValue (undo_last true (number_selected true [1] (number_selected true [0]
        { layer := [{ fid := 0, value := none }, { fid := 1, value := none }],
          history := [], active := true }))).layer 0 =
        some (some (maxScan [{ fid := 0, value := none }, { fid := 1, value := none }] + 1)) ∧
      fieldValue (undo_last true (undo_last true (number_selected true [1]
        (number_selected true [0]
        { layer := [{ fid := 0, value := none }, { fid := 1, value := none }],
          history := [], active := true })))).layer 0 =
        fieldValue [{ fid := 0, value := none }, { fid := 1, value := none }] 0 ∧
      fieldValue (undo_last true (undo_last true (number_selected true [1]
        (number_selected true [0]
        { layer := [{ fid := 0, value := none }, { fid := 1, value := none }],
          history := [], active := true })))).layer 1 =
        fieldValue [{ fid := 0, value := none }, { fid := 1, value := none }] 1 ∧
      (undo_last true (undo_last true (number_selected true [1] (number_selected true [0]
        { layer := [{ fid := 0, value := none }, { fid := 1, value := none }],
          history := [], active := true })))).history = []) :=
  undo_last_inverse
    { layer := [{ fid := 0, value := none }, { fid := 1, value := none }],
      history := [], active := true }
    0 1 { fid := 0, value := none } { fid := 1, value := none }
    rfl (by decide) (by decide) (by decide)
    (by intro v hv; injection hv) (by intro v hv; injection hv)

/-! Machinery for the order-independent 1..n numbering result (sequences
of single selections over an initially unnumbered layer). -/

theorem fid_inj (L : List Feature) (hnd : (L.map (fun g => g.fid)).Nodup)
    (f g : Feature) (hf : f ∈ L) (hg : g ∈ L) (h : f.fid = g.fid) : f = g := by
  induction L with
  | nil => cases hf
  | cons a as ih =>
    rw [List.map_cons, List.nodup_cons] at hnd
    rcases List.mem_cons.mp hf with h1 | h1 <;> rcases List.mem_cons.mp hg with h2 | h2
    · rw [h1, h2]
    · exfalso
      apply hnd.1
      rw [← h1, h]
      exact List.mem_map.mpr ⟨g, h2, rfl⟩
    · exfalso
      apply hnd.1
      rw [← h2, ← h]
      exact List.mem_map.mpr ⟨f, h1, rfl⟩
    · exact ih hnd.2 h1 h2

theorem writeValue_absent (L : List Feature) (e : Nat) (v : Option Int)
    (h : e ∉ L.map (fun g => g.fid)) : writeValue L e v = L := by
  induction L with
  | nil => rfl
  | cons f fs ih =>
    rw [List.map_cons] at h
    rw [writeValue_cons,
      if_neg (fun hc => h (by rw [← hc]; exact List.mem_cons_self _ _)),
      ih (fun hc => h (List.mem_cons_of_mem _ hc))]

theorem selected_of_mem_nodup (L : List Feature) (e : Nat) (f : Feature)
    (hnd : (L.map (fun g => g.fid)).Nodup) (hf : f ∈ L) (hfid : f.fid = e) :
    selectedFeatures L [e] = [f] := by
  induction L with
  | nil => cases hf
  | cons g gs ih =>
    rw [List.map_cons, List.nodup_cons] at hnd
    rw [selectedFeatures_cons]
    by_cases hg : g.fid = e
    · rw [if_pos (by rw [hg]; exact List.mem_singleton.mpr rfl)]
      have hgf : g = f := by
        rcases List.mem_cons.mp hf with h1 | h1
        · rw [h1]
        · exfalso
          apply hnd.1
          rw [hg, ← hfid]
          exact List.mem_map.mpr ⟨f, h1, rfl⟩
      have hnil : selectedFeatures gs [e] = [] := by
        apply List.filter_eq_nil_iff.mpr
        intro b hb
        simp only [List.mem_singleton, decide_eq_true_eq]
        intro hc
        apply hnd.1
        rw [hg, ← hc]
        exact List.mem_map.mpr ⟨b, hb, rfl⟩
      rw [hgf, hnil]
    · rw [if_neg (by simp [hg])]
      apply ih hnd.2
      rcases List.mem_cons.mp hf with h1 | h1
      · exact absurd (h1 ▸ hfid) hg
      · exact h1

theorem fieldValues_writeValue_none (L : List Feature) (f : Feature) (w : Int)
    (hnd : (L.map (fun g => g.fid)).Nodup) (hf : f ∈ L) (hnone : f.value = none) :
    ((writeValue L f.fid (some w)).filterMap (fun g => g.value)).Perm
      (w :: L.filterMap (fun g => g.value)) := by
  induction L with
  | nil => cases hf
  | cons g gs ih =>
    rw [List.map_cons, List.nodup_cons] at hnd
    rw [writeValue_cons]
    by_cases hg : g.fid = f.fid
    · have hgf : g = f := by
        rcases List.mem_cons.mp hf with h1 | h1
        · rw [h1]
        · exact absurd (List.mem_map.mpr ⟨f, h1, hg.symm⟩) hnd.1
      have habs : f.fid ∉ gs.map (fun g => g.fid) := hgf ▸ hnd.1
      rw [if_pos hg, writeValue_absent gs f.fid (some w) habs,
        List.filterMap_cons_some
          (show (fun g : Feature => g.value) { g with value := some w } = some w from rfl),
        List.filterMap_cons_none
          (show (fun g : Feature => g.value) g = none from hgf ▸ hnone)]
    · have h1 : f ∈ gs := by
        rcases List.mem_cons.mp hf with h2 | h2
        · exact absurd (h2 ▸ rfl : f.fid = g.fid) (fun hc => hg hc.symm)
        · exact h2
      cases hgv : g.value with
      | none =>
        rw [if_neg hg,
          List.filterMap_cons_none (show (fun g : Feature => g.value) g = none from hgv),
          List.filterMap_cons_none (show (fun g : Feature => g.value) g = none from hgv)]
        exact ih hnd.2 h1
      | some v =>
        rw [if_neg hg,
          List.filterMap_cons_some (show (fun g : Feature => g.value) g = some v from hgv),
          List.filterMap_cons_some (show (fun g : Feature => g.value) g = some v from hgv)]
        exact ((ih hnd.2 h1).cons v).trans (List.Perm.swap w v _)

theorem maxScan_of_values_perm (L : List Feature) (k : Nat)
    (hp : (L.filterMap (fun g => g.value)).Perm
      ((List.range k).map (fun i => ((i + 1 : Nat) : Int)))) :
    maxScan L = (k : Int) := by
  cases k with
  | zero =>
    have hnil : L.filterMap (fun g => g.value) = [] := by
      have h0 := hp
      simp only [List.range_zero, List.map_nil] at h0
      exact h0.eq_nil
    apply le_antisymm
    · apply maxScanAux_le L 0 0 (le_refl 0)
      intro f hf v hv
      exfalso
      have hvin : v ∈ L.filterMap (fun g => g.value) := List.mem_filterMap.mpr ⟨f, hf, hv⟩
      rw [hnil] at hvin
      cases hvin
    · exact maxScan_nonneg L
  | succ k' =>
    apply le_antisymm
    · apply maxScanAux_le L 0 _ (by positivity)
      intro f hf v hv
      have hvin : v ∈ L.filterMap (fun g => g.value) := List.mem_filterMap.mpr ⟨f, hf, hv⟩
      have hmem := hp.subset hvin
      rcases List.mem_map.mp hmem with ⟨i, hi, hiv⟩
      rw [List.mem_range] at hi
      omega
    · have hk : (((k' + 1 : Nat)) : Int) ∈
          (List.range (k' + 1)).map (fun i => ((i + 1 : Nat) : Int)) :=
        List.mem_map.mpr ⟨k', List.mem_range.mpr (Nat.lt_succ_self k'), rfl⟩
      have hvin := hp.symm.subset hk
      rcases List.mem_filterMap.mp hvin with ⟨f, hf, hfv⟩
      exact value_le_maxScanAux L 0 f _ hf hfv

/-- The induction invariant for sequences of single selections: the ids in
`done` are exactly the numbered features and the present values are a
permutation of 1 up to the length of `done`. -/
def NumInv (done : List Nat) (s : CtrlState) : Prop :=
  (∀ f ∈ s.layer, (f.fid ∈ done ↔ f.value ≠ none)) ∧
  (s.layer.filterMap (fun g => g.value)).Perm
    ((List.range done.length).map (fun i => ((i + 1 : Nat) : Int)))

theorem numbering_step (done : List Nat) (e : Nat) (s : CtrlState)
    (hnd : (s.layer.map (fun g => g.fid)).Nodup)
    (hact : s.active = true)
    (he : e ∈ s.layer.map (fun g => g.fid))
    (hnew : e ∉ done)
    (hInv : NumInv done s) :
    NumInv (done ++ [e]) (number_selected true [e] s) ∧
    (number_selected true [e] s).layer.map (fun g => g.fid) =
      s.layer.map (fun g => g.fid) ∧
    (number_selected true [e] s).active = true := by
  obtain ⟨f, hfmem, hffid⟩ := List.mem_map.mp he
  subst hffid
  have hfnone : f.value = none := by
    by_contra hne
    exact hnew ((hInv.1 f hfmem).mpr hne)
  have hsel : selectedFeatures s.layer [f.fid] = [f] :=
    selected_of_mem_nodup s.layer f.fid f hnd hfmem rfl
  have hvalhyp : ∀ v, f.value = some v → v ≤ 0 := by
    intro v hv
    rw [hfnone] at hv
    cases hv
  have hassign := number_selected_eq_assign_true [f.fid] s f hact hsel hvalhyp
  have hmax : maxScan s.layer = (done.length : Int) :=
    maxScan_of_values_perm s.layer done.length hInv.2
  rw [hassign]
  refine ⟨⟨?_, ?_⟩, ?_, hact⟩
  · intro g' hg'
    rcases List.mem_map.mp hg' with ⟨g, hgmem, hge⟩
    by_cases hgf : g.fid = f.fid
    · have hgeq : g = f := fid_inj s.layer hnd g f hgmem hfmem hgf
      rw [hgeq, if_pos rfl] at hge
      rw [← hge]
      exact iff_of_true (List.mem_append.mpr (Or.inr (List.mem_singleton.mpr rfl)))
        (fun hc => Option.noConfusion hc)
    · rw [if_neg hgf] at hge
      rw [← hge]
      have hiff := hInv.1 g hgmem
      constructor
      · intro hmem2
        rcases List.mem_append.mp hmem2 with h2 | h2
        · exact hiff.mp h2
        · exact absurd (List.mem_singleton.mp h2) hgf
      · intro hval2
        exact List.mem_append.mpr (Or.inl (hiff.mpr hval2))
  · have hperm1 := fieldValues_writeValue_none s.layer f (maxScan s.layer + 1) hnd hfmem hfnone
    rw [List.length_append, List.length_singleton]
    refine hperm1.trans ?_
    rw [hmax]
    have hcast : ((done.length : Int) + 1) = (((done.length + 1 : Nat)) : Int) := by
      push_cast
      ring
    rw [hcast, List.range_succ, List.map_append]
    refine (hInv.2.cons _).trans ?_
    rw [List.map_singleton]
    exact (List.perm_append_singleton _ _).symm
  · exact writeValue_fids s.layer f.fid _

theorem numbering_run : ∀ (evs done : List Nat) (s : CtrlState),
    (s.layer.map (fun g => g.fid)).Nodup →
    s.active = true →
    ((done ++ evs).Perm (s.layer.map (fun g => g.fid))) →
    NumInv done s →
    NumInv (done ++ evs) (evs.foldl (fun t e => number_selected true [e] t) s) ∧
    (evs.foldl (fun t e => number_selected true [e] t) s).layer.map (fun g => g.fid) =
      s.layer.map (fun g => g.fid) := by
  intro evs
  induction evs with
  | nil =>
    intro done s _ _ _ hInv
    exact ⟨by simpa using hInv, rfl⟩
  | cons e rest ih =>
    intro done s hnd hact hperm hInv
    have hefid : e ∈ s.layer.map (fun g => g.fid) := hperm.subset (by simp)
    have hndall : (done ++ e :: rest).Nodup := (hperm.nodup_iff).mpr hnd
    have henew : e ∉ done := fun hc =>
      (List.disjoint_of_nodup_append hndall) hc (List.mem_cons_self e rest)
    obtain ⟨hInv', hfids, hact'⟩ := numbering_step done e s hnd hact hefid henew hInv
    rw [List.foldl_cons]
    have hnd' : ((number_selected true [e] s).layer.map (fun g => g.fid)).Nodup := by
      rw [hfids]
      exact hnd
    have hperm' : ((done ++ [e]) ++ rest).Perm
        ((number_selected true [e] s).layer.map (fun g => g.fid)) := by
      rw [hfids, List.append_assoc, List.singleton_append]
      exact hperm
    obtain ⟨hI, hF⟩ := ih (done ++ [e]) (number_selected true [e] s) hnd' hact' hperm' hInv'
    constructor
    · rw [show done ++ e :: rest = (done ++ [e]) ++ rest by
        rw [List.append_assoc, List.singleton_append]]
      exact hI
    · rw [hF, hfids]

theorem map_value_of_all_some (M : List Feature) (h : ∀ f ∈ M, f.value ≠ none) :
    M.map (fun g => g.value) = (M.filterMap (fun g => g.value)).map some := by
  induction M with
  | nil => rfl
  | cons f fs ih =>
    cases hv : f.value with
    | none => exact absurd hv (h f (List.mem_cons_self f fs))
    | some v =>
      rw [List.map_cons, hv,
        List.filterMap_cons_some (show (fun g : Feature => g.value) f = some v from hv),
        List.map_cons, ih (fun g hg => h g (List.mem_cons_of_mem f hg))]

/-- C1: starting from an initially unnumbered layer with distinct feature
ids, after any sequence of single-feature selection events that selects
each feature exactly once (with all writes succeeding), the field values
are exactly 1 up to n with no repeats, regardless of the selection
order. -/
theorem numbering_once_yields_one_to_n (L : List Feature) (evs : List Nat)
    (hnd : (L.map (fun g => g.fid)).Nodup)
    (hinit : ∀ f ∈ L, f.value = none)
    (hperm : evs.Perm (L.map (fun g => g.fid))) :
    ((evs.foldl (fun t e => number_selected true [e] t)
        { layer := L, history := [], active := true }).layer.map (fun g => g.value)).Perm
      ((List.range L.length).map (fun i => some ((i + 1 : Nat) : Int))) := by
  have hInv0 : NumInv [] { layer := L, history := [], active := true } := by
    constructor
    · intro f hf
      constructor
      · intro hc
        cases hc
      · intro hval
        exact absurd (hinit f hf) hval
    · have hnil : L.filterMap (fun g => g.value) = [] :=
        List.filterMap_eq_nil_iff.mpr (fun f hf => hinit f hf)
      rw [hnil]
      simp
  have hperm0 : (([] : List Nat) ++ evs).Perm
      (({ layer := L, history := [], active := true } : CtrlState).layer.map
        (fun g => g.fid)) := by
    simpa using hperm
  obtain ⟨hI, hF⟩ := numbering_run evs [] _ hnd rfl hperm0 hInv0
  rw [List.nil_append] at hI
  have hlen : evs.length = L.length := by
    have hl := hperm.length_eq
    rwa [List.length_map] at hl
  have hallnum : ∀ f ∈ (evs.foldl (fun t e => number_selected true [e] t)
      { layer := L, history := [], active := true }).layer, f.value ≠ none := by
    intro f hf
    apply (hI.1 f hf).mp
    apply hperm.symm.subset
    rw [← hF]
    exact List.mem_map.mpr ⟨f, hf, rfl⟩
  rw [map_value_of_all_some _ hallnum]
  have hmapped := hI.2.map some
  rw [List.map_map, hlen] at hmapped
  exact hmapped

/-- C1 witness: two features numbered in reverse enumeration order. -/
theorem numbering_once_yields_one_to_n_witness :
    (([1, 0] : List Nat).foldl (fun t e => number_selected true [e] t)
        { layer := [{ fid := 0, value := none }, { fid := 1, value := none }],
          history := [], active := true }).layer.map (fun g => g.value) |>.Perm
      ((List.range ([{ fid := 0, value := none },
          { fid := 1, value := none }] : List Feature).length).map
        (fun i => some ((i + 1 : Nat) : Int))) :=
  numbering_once_yields_one_to_n
    [{ fid := 0, value := none }, { fid := 1, value := none }] [1, 0]
    (by decide) (by decide) (by decide)

/-! Machinery for `restart_numbering`: the renumbering loop is a pointwise
map determined by each id's position in the renumber list. -/

/-- The value the renumbering loop starting at `i` assigns to id `e`:
`some (i + j)` when `e` first occurs at position `j` of `items`, `none`
when `e` is not renumbered. -/
def targetVal (i : Int) (items : List (Feature × Int)) (e : Nat) : Option Int :=
  match items with
  | [] => none
  | x :: xs => if x.1.fid = e then some i else targetVal (i + 1) xs e

theorem targetVal_absent (items : List (Feature × Int)) (e : Nat) :
    ∀ (i : Int), e ∉ items.map (fun p => p.1.fid) → targetVal i items e = none := by
  induction items with
  | nil => intro i _; rfl
  | cons x xs ih =>
    intro i h
    rw [List.map_cons] at h
    rw [targetVal, if_neg (fun hc => h (by rw [← hc]; exact List.mem_cons_self _ _))]
    exact ih (i + 1) (fun hc => h (List.mem_cons_of_mem _ hc))

theorem targetVal_get (items : List (Feature × Int)) :
    ∀ (i : Int) (j : Nat) (p : Feature × Int),
      (items.map (fun p => p.1.fid)).Nodup → items.get? j = some p →
      targetVal i items p.1.fid = some (i + (j : Int)) := by
  induction items with
  | nil => intro i j p _ h; cases j <;> cases h
  | cons x xs ih =>
    intro i j p hnd hget
    rw [List.map_cons, List.nodup_cons] at hnd
    cases j with
    | zero =>
      rw [List.get?_cons_zero] at hget
      injection hget with hget
      rw [hget, targetVal, if_pos rfl]
      norm_num
    | succ j' =>
      rw [List.get?_cons_succ] at hget
      have hmem : p ∈ xs := List.get?_mem hget
      have hne : ¬ x.1.fid = p.1.fid := fun hc =>
        hnd.1 (hc ▸ List.mem_map.mpr ⟨p, hmem, rfl⟩)
      rw [targetVal, if_neg hne, ih (i + 1) j' p hnd.2 hget]
      congr 1
      push_cast
      ring

theorem targetVal_inv (items : List (Feature × Int)) :
    ∀ (i : Int) (e : Nat) (w : Int), targetVal i items e = some w →
      ∃ j p, items.get? j = some p ∧ p.1.fid = e ∧ w = i + (j : Int) := by
  induction items with
  | nil => intro i e w h; cases h
  | cons x xs ih =>
    intro i e w h
    rw [targetVal] at h
    by_cases hx : x.1.fid = e
    · rw [if_pos hx] at h
      injection h with h
      exact ⟨0, x, List.get?_cons_zero, hx, by rw [← h]; norm_num⟩
    · rw [if_neg hx] at h
      rcases ih (i + 1) e w h with ⟨j, p, hget, hfid, hw⟩
      refine ⟨j + 1, p, by rw [List.get?_cons_succ]; exact hget, hfid, ?_⟩
      rw [hw]
      push_cast
      ring

theorem targetVal_isSome_of_mem (items : List (Feature × Int)) :
    ∀ (i : Int) (p : Feature × Int), p ∈ items →
      ∃ w, targetVal i items p.1.fid = some w := by
  induction items with
  | nil => intro i p h; cases h
  | cons x xs ih =>
    intro i p h
    by_cases hx : x.1.fid = p.1.fid
    · exact ⟨i, by rw [targetVal, if_pos hx]⟩
    · have hmem : p ∈ xs := by
        rcases List.mem_cons.mp h with h1 | h1
        · exact absurd (h1 ▸ rfl : x.1.fid = p.1.fid) hx
        · exact h1
      rcases ih (i + 1) p hmem with ⟨w, hw⟩
      exact ⟨w, by rw [targetVal, if_neg hx]; exact hw⟩

theorem targetVal_sublist_lt (items : List (Feature × Int)) :
    ∀ (i : Int) (a b : Feature × Int),
      (items.map (fun p => p.1.fid)).Nodup → [a, b].Sublist items →
      ∃ va vb, targetVal i items a.1.fid = some va ∧
        targetVal i items b.1.fid = some vb ∧ va < vb := by
  induction items with
  | nil =>
    intro i a b _ hsub
    cases hsub
  | cons x xs ih =>
    intro i a b hnd hsub
    rw [List.map_cons, List.nodup_cons] at hnd
    cases hsub with
    | cons _ htail =>
      -- [a, b] <+ xs
      have hamem : a ∈ xs := htail.subset (List.mem_cons_self a [b])
      have hbmem : b ∈ xs := htail.subset (List.mem_cons_of_mem a (List.mem_singleton.mpr rfl))
      have hxa : ¬ x.1.fid = a.1.fid := fun hc =>
        hnd.1 (hc ▸ List.mem_map.mpr ⟨a, hamem, rfl⟩)
      have hxb : ¬ x.1.fid = b.1.fid := fun hc =>
        hnd.1 (hc ▸ List.mem_map.mpr ⟨b, hbmem, rfl⟩)
      rcases ih (i + 1) a b hnd.2 htail with ⟨va, vb, ha, hb, hlt⟩
      exact ⟨va, vb, by rw [targetVal, if_neg hxa]; exact ha,
        by rw [targetVal, if_neg hxb]; exact hb, hlt⟩
    | cons₂ _ htail =>
      -- the head is the first element of the pair
      have hbmem : b ∈ xs := htail.subset (List.mem_singleton.mpr rfl)
      have hxb : ¬ x.1.fid = b.1.fid := fun hc =>
        hnd.1 (hc ▸ List.mem_map.mpr ⟨b, hbmem, rfl⟩)
      rcases targetVal_isSome_of_mem xs (i + 1) b hbmem with ⟨vb, hvb⟩
      have hvb_ge : i + 1 ≤ vb := by
        rcases targetVal_inv xs (i + 1) b.1.fid vb hvb with ⟨j, p, _, _, hw⟩
        rw [hw]
        omega
      refine ⟨i, vb, by rw [targetVal, if_pos rfl], by rw [targetVal, if_neg hxb]; exact hvb, ?_⟩
      omega

theorem numFun_inv (f : Feature) (p : Feature × Int) (h : numFun f = some p) :
    p.1 = f ∧ f.value = some p.2 ∧ 0 < p.2 := by
  unfold numFun at h
  cases hv : f.value with
  | none =>
    rw [hv] at h
    exact Option.noConfusion h
  | some v =>
    rw [hv] at h
    by_cases hpos : 0 < v
    · have heq : some (f, v) = some p := by
        rw [← h]
        simp [hpos]
      injection heq with heq
      rw [← heq]
      exact ⟨rfl, rfl, hpos⟩
    · exfalso
      have heq : (none : Option (Feature × Int)) = some p := by
        rw [← h]
        simp [hpos]
      exact Option.noConfusion heq

theorem numFun_of_pos (f : Feature) (v : Int) (hv : f.value = some v) (hpos : 0 < v) :
    numFun f = some (f, v) := by
  unfold numFun
  rw [hv]
  simp [hpos]

theorem numFun_of_nonpos (f : Feature) (hval : ∀ v, f.value = some v → v ≤ 0) :
    numFun f = none := by
  unfold numFun
  cases hv : f.value with
  | none => rfl
  | some v => simp [not_lt.mpr (hval v hv)]

theorem mem_numberedFeatures (L : List Feature) (p : Feature × Int) (hp : p ∈ numberedFeatures L) :
    p.1 ∈ L ∧ p.1.value = some p.2 ∧ 0 < p.2 := by
  rcases List.mem_filterMap.mp hp with ⟨f, hf, heq⟩
  obtain ⟨h1, h2, h3⟩ := numFun_inv f p heq
  rw [h1]
  exact ⟨hf, h2, h3⟩

theorem numberedFeatures_fst_sublist (L : List Feature) :
    ((numberedFeatures L).map (fun p => p.1)).Sublist L := by
  induction L with
  | nil => exact List.Sublist.refl []
  | cons f fs ih =>
    cases hnf : numFun f with
    | none =>
      rw [show numberedFeatures (f :: fs) = numberedFeatures fs from by
        unfold numberedFeatures
        rw [List.filterMap_cons_none hnf]]
      exact ih.cons f
    | some p =>
      rw [show numberedFeatures (f :: fs) = p :: numberedFeatures fs from by
        unfold numberedFeatures
        rw [List.filterMap_cons_some hnf]]
      rw [List.map_cons, (numFun_inv f p hnf).1]
      exact ih.cons₂ f

theorem numberedFeatures_fids_nodup (L : List Feature)
    (hnd : (L.map (fun g => g.fid)).Nodup) :
    ((numberedFeatures L).map (fun p => p.1.fid)).Nodup := by
  have hs := (numberedFeatures_fst_sublist L).map (fun g => g.fid)
  rw [List.map_map] at hs
  exact hnd.sublist hs

theorem insertSorted_perm (x : Feature × Int) (l : List (Feature × Int)) :
    (insertSorted x l).Perm (x :: l) := by
  induction l with
  | nil => exact List.Perm.refl _
  | cons y ys ih =>
    rw [insertSorted]
    by_cases h : x.2 ≤ y.2
    · rw [if_pos h]
    · rw [if_neg h]
      exact (ih.cons y).trans (List.Perm.swap x y ys)

theorem sortByNumber_perm (l : List (Feature × Int)) : (sortByNumber l).Perm l := by
  induction l with
  | nil => exact List.Perm.refl _
  | cons x xs ih =>
    rw [sortByNumber]
    exact (insertSorted_perm x (sortByNumber xs)).trans (ih.cons x)

theorem pairwise_insertSorted (x : Feature × Int) (l : List (Feature × Int))
    (h : List.Pairwise (fun a b : Feature × Int => a.2 ≤ b.2) l) :
    List.Pairwise (fun a b : Feature × Int => a.2 ≤ b.2) (insertSorted x l) := by
  induction l with
  | nil => exact List.pairwise_singleton _ x
  | cons y ys ih =>
    rw [List.pairwise_cons] at h
    rw [insertSorted]
    by_cases hxy : x.2 ≤ y.2
    · rw [if_pos hxy]
      rw [List.pairwise_cons]
      constructor
      · intro z hz
        rcases List.mem_cons.mp hz with h1 | h1
        · rw [h1]
          exact hxy
        · exact le_trans hxy (h.1 z h1)
      · exact List.pairwise_cons.mpr h
    · rw [if_neg hxy]
      rw [List.pairwise_cons]
      constructor
      · intro z hz
        have hz' : z = x ∨ z ∈ ys :=
          List.mem_cons.mp ((insertSorted_perm x ys).mem_iff.mp hz)
        rcases hz' with h1 | h1
        · rw [h1]
          exact le_of_not_le hxy
        · exact h.1 z h1
      · exact ih h.2

theorem pairwise_sortByNumber (l : List (Feature × Int)) :
    List.Pairwise (fun a b : Feature × Int => a.2 ≤ b.2) (sortByNumber l) := by
  induction l with
  | nil => exact List.Pairwise.nil
  | cons x xs ih =>
    rw [sortByNumber]
    exact pairwise_insertSorted x _ ih

theorem sublist_insertSorted (x a b : Feature × Int) :
    ∀ (l : List (Feature × Int)), [a, b].Sublist l → [a, b].Sublist (insertSorted x l) := by
  intro l
  induction l with
  | nil => intro h; cases h
  | cons y ys ih =>
    intro h
    rw [insertSorted]
    by_cases hxy : x.2 ≤ y.2
    · rw [if_pos hxy]
      exact h.cons x
    · rw [if_neg hxy]
      cases h with
      | cons _ htail => exact (ih htail).cons y
      | cons₂ _ htail =>
        refine List.Sublist.cons₂ a ?_
        have hbys : b ∈ ys := htail.subset (List.mem_singleton.mpr rfl)
        exact List.singleton_sublist.mpr
          ((insertSorted_perm x ys).mem_iff.mpr (List.mem_cons_of_mem x hbys))

theorem sublist_insertSorted_head (x b : Feature × Int) :
    ∀ (l : List (Feature × Int)), b ∈ l → x.2 ≤ b.2 → [x, b].Sublist (insertSorted x l) := by
  intro l
  induction l with
  | nil => intro h; cases h
  | cons y ys ih =>
    intro hb hxb
    rw [insertSorted]
    by_cases hxy : x.2 ≤ y.2
    · rw [if_pos hxy]
      exact List.Sublist.cons₂ x (List.singleton_sublist.mpr hb)
    · rw [if_neg hxy]
      have hbys : b ∈ ys := by
        rcases List.mem_cons.mp hb with h1 | h1
        · exact absurd (h1 ▸ hxb) hxy
        · exact h1
      exact (ih hbys hxb).cons y

theorem sortByNumber_stable (a b : Feature × Int) (hab : a.2 ≤ b.2) :
    ∀ (l : List (Feature × Int)), [a, b].Sublist l → [a, b].Sublist (sortByNumber l) := by
  intro l
  induction l with
  | nil => intro h; cases h
  | cons x xs ih =>
    intro h
    rw [sortByNumber]
    cases h with
    | cons _ htail => exact sublist_insertSorted x a b _ (ih htail)
    | cons₂ _ htail =>
      have hbmem : b ∈ sortByNumber xs :=
        (sortByNumber_perm xs).mem_iff.mpr (htail.subset (List.mem_singleton.mpr rfl))
      exact sublist_insertSorted_head a b _ hbmem hab

theorem two_mem_sublist (a b : Feature × Int) :
    ∀ (l : List (Feature × Int)), a ∈ l → b ∈ l → a ≠ b →
      [a, b].Sublist l ∨ [b, a].Sublist l := by
  intro l
  induction l with
  | nil => intro ha _ _; cases ha
  | cons x xs ih =>
    intro ha hb hne
    rcases List.mem_cons.mp ha with h1 | h1
    · rcases List.mem_cons.mp hb with h2 | h2
      · exact absurd (h1.trans h2.symm) hne
      · left
        rw [h1]
        exact List.Sublist.cons₂ x (List.singleton_sublist.mpr h2)
    · rcases List.mem_cons.mp hb with h2 | h2
      · right
        rw [h2]
        exact List.Sublist.cons₂ x (List.singleton_sublist.mpr h1)
      · rcases ih h1 h2 hne with h3 | h3
        · exact Or.inl (h3.cons x)
        · exact Or.inr (h3.cons x)

theorem sortByNumber_order (a b : Feature × Int) (l : List (Feature × Int))
    (ha : a ∈ l) (hb : b ∈ l) (hne : a ≠ b) (hab : a.2 < b.2) :
    [a, b].Sublist (sortByNumber l) := by
  have ha' : a ∈ sortByNumber l := (sortByNumber_perm l).mem_iff.mpr ha
  have hb' : b ∈ sortByNumber l := (sortByNumber_perm l).mem_iff.mpr hb
  rcases two_mem_sublist a b _ ha' hb' hne with h | h
  · exact h
  · exfalso
    have hpw := (pairwise_sortByNumber l).sublist h
    rw [List.pairwise_cons] at hpw
    exact absurd (hpw.1 a (List.mem_singleton.mpr rfl)) (not_le.mpr hab)

/-- The pointwise effect of the renumbering loop on one feature. -/
def renumUpdate (i : Int) (items : List (Feature × Int)) (f : Feature) : Feature :=
  match targetVal i items f.fid with
  | some w => { f with value := some w }
  | none => f

theorem renumUpdate_fid (i : Int) (items : List (Feature × Int)) (f : Feature) :
    (renumUpdate i items f).fid = f.fid := by
  unfold renumUpdate
  cases targetVal i items f.fid <;> rfl

theorem applyRenum_eq_map (items : List (Feature × Int)) :
    ∀ (i : Int) (L : List Feature), (items.map (fun p => p.1.fid)).Nodup →
      applyRenum i items L = L.map (renumUpdate i items) := by
  induction items with
  | nil =>
    intro i L _
    rw [applyRenum]
    have hfun : L.map (renumUpdate i []) = L.map (fun f => f) := rfl
    rw [hfun, List.map_id']
  | cons x xs ih =>
    intro i L hnd
    rw [List.map_cons, List.nodup_cons] at hnd
    rw [applyRenum, ih (i + 1) _ hnd.2]
    unfold writeValue
    rw [List.map_map]
    apply List.map_congr_left
    intro f _
    show renumUpdate (i + 1) xs (if f.fid = x.1.fid then { f with value := some i } else f) =
      renumUpdate i (x :: xs) f
    by_cases hf : f.fid = x.1.fid
    · rw [if_pos hf]
      have h1 : renumUpdate (i + 1) xs { f with value := some i } =
          { f with value := some i } := by
        unfold renumUpdate
        rw [show ({ f with value := some i } : Feature).fid = f.fid from rfl,
          targetVal_absent xs f.fid (i + 1) (by rw [hf]; exact hnd.1)]
      have h2 : renumUpdate i (x :: xs) f = { f with value := some i } := by
        unfold renumUpdate
        rw [targetVal, if_pos hf.symm]
      rw [h1, h2]
    · rw [if_neg hf]
      have h2 : renumUpdate i (x :: xs) f = renumUpdate (i + 1) xs f := by
        unfold renumUpdate
        rw [targetVal, if_neg (fun hc => hf hc.symm)]
      rw [h2]

theorem fieldValue_of_mem_nodup (L : List Feature) (f : Feature)
    (hnd : (L.map (fun g => g.fid)).Nodup) (hf : f ∈ L) :
    fieldValue L f.fid = some f.value := by
  induction L with
  | nil => cases hf
  | cons g gs ih =>
    have hnd' := hnd
    rw [List.map_cons, List.nodup_cons] at hnd'
    rw [fieldValue_cons]
    by_cases hg : g.fid = f.fid
    · rw [if_pos hg]
      rw [fid_inj (g :: gs) hnd g f (List.mem_cons_self _ _) hf hg]
    · rw [if_neg hg]
      apply ih hnd'.2
      rcases List.mem_cons.mp hf with h1 | h1
      · exact absurd (h1 ▸ rfl : f.fid = g.fid) (fun hc => hg hc.symm)
      · exact h1

theorem map_renumUpdate_fids (L : List Feature) (i : Int) (items : List (Feature × Int)) :
    (L.map (renumUpdate i items)).map (fun g => g.fid) = L.map (fun g => g.fid) := by
  rw [List.map_map]
  apply List.map_congr_left
  intro f _
  exact renumUpdate_fid i items f

theorem sorted_fids_nodup (L : List Feature) (hnd : (L.map (fun g => g.fid)).Nodup) :
    ((sortByNumber (numberedFeatures L)).map (fun p => p.1.fid)).Nodup := by
  have hperm := (sortByNumber_perm (numberedFeatures L)).map (fun p => p.1.fid)
  exact hperm.nodup_iff.mpr (numberedFeatures_fids_nodup L hnd)

theorem restart_layer_eq (s : CtrlState) (hnd : (s.layer.map (fun g => g.fid)).Nodup) :
    (restart_numbering s).layer =
      s.layer.map (renumUpdate 1 (sortByNumber (numberedFeatures s.layer))) := by
  show applyRenum 1 (sortByNumber (numberedFeatures s.layer)) s.layer = _
  exact applyRenum_eq_map _ 1 s.layer (sorted_fids_nodup s.layer hnd)

theorem targetVal_none_of_nonpos (L : List Feature) (hnd : (L.map (fun g => g.fid)).Nodup)
    (f : Feature) (hf : f ∈ L) (hval : ∀ v, f.value = some v → v ≤ 0) :
    targetVal 1 (sortByNumber (numberedFeatures L)) f.fid = none := by
  cases ht : targetVal 1 (sortByNumber (numberedFeatures L)) f.fid with
  | none => rfl
  | some w =>
    exfalso
    rcases targetVal_inv _ 1 f.fid w ht with ⟨j, p, hget, hfid, _⟩
    have hpS : p ∈ sortByNumber (numberedFeatures L) := List.get?_mem hget
    have hpN : p ∈ numberedFeatures L := (sortByNumber_perm _).mem_iff.mp hpS
    obtain ⟨hmem, hv, hpos⟩ := mem_numberedFeatures L p hpN
    have : p.1 = f := fid_inj L hnd p.1 f hmem hf hfid
    rw [this] at hv
    exact absurd hpos (not_lt.mpr (hval p.2 hv))

theorem restart_fieldValue_of_mem (s : CtrlState)
    (hnd : (s.layer.map (fun g => g.fid)).Nodup)
    (p : Feature × Int) (hp : p ∈ numberedFeatures s.layer) (w : Int)
    (ht : targetVal 1 (sortByNumber (numberedFeatures s.layer)) p.1.fid = some w) :
    fieldValue (restart_numbering s).layer p.1.fid = some (some w) := by
  obtain ⟨hmem, _, _⟩ := mem_numberedFeatures s.layer p hp
  rw [restart_layer_eq s hnd]
  have hndL' : ((s.layer.map (renumUpdate 1 (sortByNumber (numberedFeatures s.layer)))).map
      (fun g => g.fid)).Nodup := by
    rw [map_renumUpdate_fids]
    exact hnd
  have hmem' : renumUpdate 1 (sortByNumber (numberedFeatures s.layer)) p.1 ∈
      s.layer.map (renumUpdate 1 (sortByNumber (numberedFeatures s.layer))) :=
    List.mem_map.mpr ⟨p.1, hmem, rfl⟩
  have hfv := fieldValue_of_mem_nodup _ _ hndL' hmem'
  rw [renumUpdate_fid] at hfv
  rw [hfv]
  have hval' : (renumUpdate 1 (sortByNumber (numberedFeatures s.layer)) p.1).value = some w := by
    unfold renumUpdate
    rw [ht]
  rw [hval']

theorem map_eq_range_map {α β : Type} (l : List α) (F : α → β) :
    ∀ (g : Nat → β), (∀ j a, l.get? j = some a → F a = g j) →
      l.map F = (List.range l.length).map g := by
  induction l with
  | nil => intro g _; rfl
  | cons x xs ih =>
    intro g h
    rw [List.map_cons, List.length_cons, List.range_succ_eq_map, List.map_cons, List.map_map]
    rw [h 0 x List.get?_cons_zero]
    congr 1
    exact ih (fun j => g (j + 1))
      (fun j a hj => h (j + 1) a (by rw [List.get?_cons_succ]; exact hj))

theorem sublist_pair_of_get? {α : Type} (l : List α) :
    ∀ (i j : Nat) (a b : α), i < j → l.get? i = some a → l.get? j = some b →
      [a, b].Sublist l := by
  induction l with
  | nil => intro i j a b _ ha _; cases i <;> cases ha
  | cons x xs ih =>
    intro i j a b hij ha hb
    cases i with
    | zero =>
      rw [List.get?_cons_zero] at ha
      injection ha with ha
      cases j with
      | zero => cases hij
      | succ j' =>
        rw [List.get?_cons_succ] at hb
        rw [← ha]
        exact List.Sublist.cons₂ x (List.singleton_sublist.mpr (List.get?_mem hb))
    | succ i' =>
      cases j with
      | zero => cases hij
      | succ j' =>
        rw [List.get?_cons_succ] at ha hb
        exact (ih i' j' a b (Nat.succ_lt_succ_iff.mp hij) ha hb).cons x

/-- C5: with distinct feature ids, `restart_numbering` leaves every
feature without a present positive number unchanged, reassigns the
positively numbered features exactly the values 1..k (as a multiset), and
assigns strictly increasing values along the stable order: by current
number ascending, ties broken by enumeration order. -/
theorem restart_numbering_correct (s : CtrlState)
    (hnd : (s.layer.map (fun g => g.fid)).Nodup) :
    (∀ f ∈ s.layer, (∀ v, f.value = some v → v ≤ 0) →
      fieldValue (restart_numbering s).layer f.fid = some f.value) ∧
    ((numberedFeatures s.layer).map
        (fun p => fieldValue (restart_numbering s).layer p.1.fid)).Perm
      ((List.range (numberedFeatures s.layer).length).map
        (fun n => some (some ((n + 1 : Nat) : Int)))) ∧
    (∀ i j fi fj vi vj ai aj,
      s.layer.get? i = some fi → s.layer.get? j = some fj →
      fi.value = some vi → 0 < vi → fj.value = some vj → 0 < vj →
      (vi < vj ∨ (vi = vj ∧ i < j)) →
      fieldValue (restart_numbering s).layer fi.fid = some (some ai) →
      fieldValue (restart_numbering s).layer fj.fid = some (some aj) →
      ai < aj) := by
  refine ⟨?_, ?_, ?_⟩
  · intro f hf hval
    rw [restart_layer_eq s hnd]
    have hG : renumUpdate 1 (sortByNumber (numberedFeatures s.layer)) f = f := by
      unfold renumUpdate
      rw [targetVal_none_of_nonpos s.layer hnd f hf hval]
    have hndL' : ((s.layer.map (renumUpdate 1 (sortByNumber (numberedFeatures s.layer)))).map
        (fun g => g.fid)).Nodup := by
      rw [map_renumUpdate_fids]
      exact hnd
    have hmem' : f ∈ s.layer.map (renumUpdate 1 (sortByNumber (numberedFeatures s.layer))) :=
      List.mem_map.mpr ⟨f, hf, hG⟩
    exact fieldValue_of_mem_nodup _ f hndL' hmem'
  · have hstep : ∀ (j : Nat) (p : Feature × Int),
        (sortByNumber (numberedFeatures s.layer)).get? j = some p →
        (fun p : Feature × Int => fieldValue (restart_numbering s).layer p.1.fid) p =
          some (some ((1 : Int) + (j : Int))) := by
      intro j p hget
      have hpN : p ∈ numberedFeatures s.layer :=
        (sortByNumber_perm _).mem_iff.mp (List.get?_mem hget)
      exact restart_fieldValue_of_mem s hnd p hpN _
        (targetVal_get _ 1 j p (sorted_fids_nodup s.layer hnd) hget)
    refine ((sortByNumber_perm (numberedFeatures s.layer)).symm.map
      (fun p => fieldValue (restart_numbering s).layer p.1.fid)).trans ?_
    rw [map_eq_range_map (sortByNumber (numberedFeatures s.layer))
      (fun p => fieldValue (restart_numbering s).layer p.1.fid)
      (fun j => some (some ((1 : Int) + (j : Int)))) hstep]
    rw [(sortByNumber_perm (numberedFeatures s.layer)).length_eq]
    rw [List.map_congr_left (l := List.range (numberedFeatures s.layer).length)
      (f := fun j : Nat => some (some ((1 : Int) + (j : Int))))
      (g := fun n : Nat => some (some ((n + 1 : Nat) : Int)))
      (by intro n _; congr 2; push_cast; ring)]
  · intro i j fi fj vi vj ai aj hgi hgj hvi hpi hvj hpj hord hai haj
    have haN : (fi, vi) ∈ numberedFeatures s.layer :=
      List.mem_filterMap.mpr ⟨fi, List.get?_mem hgi, numFun_of_pos fi vi hvi hpi⟩
    have hbN : (fj, vj) ∈ numberedFeatures s.layer :=
      List.mem_filterMap.mpr ⟨fj, List.get?_mem hgj, numFun_of_pos fj vj hvj hpj⟩
    have hsub : [(fi, vi), (fj, vj)].Sublist (sortByNumber (numberedFeatures s.layer)) := by
      rcases hord with hlt | ⟨heq, hij⟩
      · exact sortByNumber_order _ _ _ haN hbN
          (fun hc => absurd (congrArg Prod.snd hc) (ne_of_lt hlt)) hlt
      · apply sortByNumber_stable _ _ (le_of_eq heq)
        have hpair : [fi, fj].Sublist s.layer :=
          sublist_pair_of_get? s.layer i j fi fj hij hgi hgj
        have hfm := hpair.filterMap numFun
        rw [show List.filterMap numFun [fi, fj] = [(fi, vi), (fj, vj)] from by
          rw [List.filterMap_cons_some (numFun_of_pos fi vi hvi hpi),
            List.filterMap_cons_some (numFun_of_pos fj vj hvj hpj)]
          rfl] at hfm
        exact hfm
    rcases targetVal_sublist_lt _ 1 _ _ (sorted_fids_nodup s.layer hnd) hsub with
      ⟨va, vb, hta, htb, hlt⟩
    have h1 := restart_fieldValue_of_mem s hnd (fi, vi) haN va hta
    have h2 := restart_fieldValue_of_mem s hnd (fj, vj) hbN vb htb
    have hva : ai = va := by
      have h3 := hai.symm.trans h1
      injection h3 with h3
      injection h3 with h3
    have hvb : aj = vb := by
      have h3 := haj.symm.trans h2
      injection h3 with h3
      injection h3 with h3
    rw [hva, hvb]
    exact hlt

/-- C5 witness: the spec's example - values 5, 2, 8 on ids 0, 1, 2 and an
unnumbered id 3; after restart id 1 holds 1, id 0 holds 2, id 2 holds 3
and id 3 is untouched. -/
theorem restart_numbering_correct_witness :
    (∀ f ∈ ([{ fid := 0, value := some 5 }, { fid := 1, value := some 2 },
        { fid := 2, value := some 8 }, { fid := 3, value := none }] : List Feature),
      (∀ v, f.value = some v → v ≤ 0) →
      fieldValue (restart_numbering
        { layer := [{ fid := 0, value := some 5 }, { fid := 1, value := some 2 },
            { fid := 2, value := some 8 }, { fid := 3, value := none }],
          history := [], active := true }).layer f.fid = some f.value) ∧
    ((numberedFeatures [{ fid := 0, value := some 5 }, { fid := 1, value := some 2 },
        { fid := 2, value := some 8 }, { fid := 3, value := none }]).map
        (fun p => fieldValue (restart_numbering
          { layer := [{ fid := 0, value := some 5 }, { fid := 1, value := some 2 },
              { fid := 2, value := some 8 }, { fid := 3, value := none }],
            history := [], active := true }).layer p.1.fid)).Perm
      ((List.range (numberedFeatures [{ fid := 0, value := some 5 },
          { fid := 1, value := some 2 }, { fid := 2, value := some 8 },
          { fid := 3, value := none }]).length).map
        (fun n => some (some ((n + 1 : Nat) : Int)))) ∧
    (∀ i j fi fj vi vj ai aj,
      ([{ fid := 0, value := some 5 }, { fid := 1, value := some 2 },
        { fid := 2, value := some 8 }, { fid := 3, value := none }] : List Feature).get? i =
          some fi →
      ([{ fid := 0, value := some 5 }, { fid := 1, value := some 2 },
        { fid := 2, value := some 8 }, { fid := 3, value := none }] : List Feature).get? j =
          some fj →
      fi.value = some vi → 0 < vi → fj.value = some vj → 0 < vj →
      (vi < vj ∨ (vi = vj ∧ i < j)) →
      fieldValue (restart_numbering
        { layer := [{ fid := 0, value := some 5 }, { fid := 1, value := some 2 },
            { fid := 2, value := some 8 }, { fid := 3, value := none }],
          history := [], active := true }).layer fi.fid = some (some ai) →
      fieldValue (restart_numbering
        { layer := [{ fid := 0, value := some 5 }, { fid := 1, value := some 2 },
            { fid := 2, value := some 8 }, { fid := 3, value := none }],
          history := [], active := true }).layer fj.fid = some (some aj) →
      ai < aj) :=
  restart_numbering_correct
    { layer := [{ fid := 0, value := some 5 }, { fid := 1, value := some 2 },
        { fid := 2, value := some 8 }, { fid := 3, value := none }],
      history := [], active := true }
    (by decide)

theorem numFun_none_inv (f : Feature) (h : numFun f = none) :
    ∀ v, f.value = some v → v ≤ 0 := by
  intro v hv
  by_contra hc
  rw [numFun_of_pos f v hv (not_le.mp hc)] at h
  exact Option.noConfusion h

/-- The effect of one restart on one entry of the numbered list: pair the
updated feature with its newly assigned number. -/
def renumPair (items : List (Feature × Int)) (p : Feature × Int) : Feature × Int :=
  match targetVal 1 items p.1.fid with
  | some w => ({ p.1 with value := some w }, w)
  | none => p

theorem filterMap_comp_eq_map {α β : Type} (h1 h2 : α → Option β) (G2 : β → β) :
    ∀ (L : List α), (∀ f ∈ L, h2 f = (h1 f).map G2) →
      L.filterMap h2 = (L.filterMap h1).map G2 := by
  intro L
  induction L with
  | nil => intro _; rfl
  | cons x xs ih =>
    intro h
    have hx := h x (List.mem_cons_self x xs)
    have htail := ih (fun f hf => h f (List.mem_cons_of_mem x hf))
    cases h1x : h1 x with
    | none =>
      rw [h1x] at hx
      rw [List.filterMap_cons_none hx, List.filterMap_cons_none h1x, htail]
    | some b =>
      rw [h1x] at hx
      rw [List.filterMap_cons_some hx, List.filterMap_cons_some h1x, List.map_cons, htail]

theorem numFun_renumUpdate (s : CtrlState) (hnd : (s.layer.map (fun g => g.fid)).Nodup)
    (f : Feature) (hf : f ∈ s.layer) :
    numFun (renumUpdate 1 (sortByNumber (numberedFeatures s.layer)) f) =
      (numFun f).map (renumPair (sortByNumber (numberedFeatures s.layer))) := by
  cases hnf : numFun f with
  | none =>
    have hval := numFun_none_inv f hnf
    have hG : renumUpdate 1 (sortByNumber (numberedFeatures s.layer)) f = f := by
      unfold renumUpdate
      rw [targetVal_none_of_nonpos s.layer hnd f hf hval]
    rw [hG, hnf]
    rfl
  | some p =>
    obtain ⟨hp1, _, _⟩ := numFun_inv f p hnf
    have hpN : p ∈ numberedFeatures s.layer := List.mem_filterMap.mpr ⟨f, hf, hnf⟩
    have hpS : p ∈ sortByNumber (numberedFeatures s.layer) :=
      (sortByNumber_perm _).mem_iff.mpr hpN
    rcases targetVal_isSome_of_mem _ 1 p hpS with ⟨w, hw⟩
    have hwpos : 0 < w := by
      rcases targetVal_inv _ 1 p.1.fid w hw with ⟨j, q, _, _, hww⟩
      rw [hww]
      omega
    have hG : renumUpdate 1 (sortByNumber (numberedFeatures s.layer)) f =
        { f with value := some w } := by
      unfold renumUpdate
      rw [hp1] at hw
      rw [hw]
    rw [hG, numFun_of_pos { f with value := some w } w rfl hwpos, Option.map_some']
    congr 1
    unfold renumPair
    rw [hw]
    rw [hp1]

theorem numberedFeatures_restart (s : CtrlState)
    (hnd : (s.layer.map (fun g => g.fid)).Nodup) :
    numberedFeatures (restart_numbering s).layer =
      (numberedFeatures s.layer).map
        (renumPair (sortByNumber (numberedFeatures s.layer))) := by
  rw [restart_layer_eq s hnd]
  unfold numberedFeatures
  rw [List.filterMap_map]
  exact filterMap_comp_eq_map numFun _ _ s.layer (fun f hf => numFun_renumUpdate s hnd f hf)

theorem restart_keys (s : CtrlState) (hnd : (s.layer.map (fun g => g.fid)).Nodup) :
    ((numberedFeatures (restart_numbering s).layer).map (fun p => p.2)).Perm
      ((List.range (numberedFeatures s.layer).length).map
        (fun j : Nat => (1 : Int) + (j : Int))) := by
  rw [numberedFeatures_restart s hnd, List.map_map]
  refine ((sortByNumber_perm (numberedFeatures s.layer)).symm.map _).trans ?_
  have hstep : ∀ (j : Nat) (p : Feature × Int),
      (sortByNumber (numberedFeatures s.layer)).get? j = some p →
      ((fun p => p.2) ∘ renumPair (sortByNumber (numberedFeatures s.layer))) p =
        (1 : Int) + (j : Int) := by
    intro j p hget
    have ht := targetVal_get _ 1 j p (sorted_fids_nodup s.layer hnd) hget
    show (renumPair (sortByNumber (numberedFeatures s.layer)) p).2 = (1 : Int) + (j : Int)
    unfold renumPair
    rw [ht]
  rw [map_eq_range_map _ _ _ hstep, (sortByNumber_perm (numberedFeatures s.layer)).length_eq]

/-- C6: with distinct feature ids, applying `restart_numbering` twice
yields the same field values as applying it once: the first pass leaves
the numbered features holding exactly the distinct values 1..k, so the
second pass sorts them into the same order and rewrites each value with
itself. -/
theorem restart_numbering_idempotent (s : CtrlState)
    (hnd : (s.layer.map (fun g => g.fid)).Nodup) :
    (restart_numbering (restart_numbering s)).layer = (restart_numbering s).layer := by
  have hnd' : ((restart_numbering s).layer.map (fun g => g.fid)).Nodup := by
    rw [restart_layer_eq s hnd, map_renumUpdate_fids]
    exact hnd
  have hkeysS2perm : ((sortByNumber (numberedFeatures (restart_numbering s).layer)).map
      (fun p => p.2)).Perm
      ((List.range (numberedFeatures s.layer).length).map
        (fun j : Nat => (1 : Int) + (j : Int))) :=
    ((sortByNumber_perm _).map _).trans (restart_keys s hnd)
  have hsorted1 : List.Pairwise (fun a b : Int => a ≤ b)
      ((sortByNumber (numberedFeatures (restart_numbering s).layer)).map (fun p => p.2)) :=
    List.pairwise_map.mpr (pairwise_sortByNumber _)
  have hsorted2 : List.Pairwise (fun a b : Int => a ≤ b)
      ((List.range (numberedFeatures s.layer).length).map
        (fun j : Nat => (1 : Int) + (j : Int))) := by
    apply List.pairwise_map.mpr
    apply (List.pairwise_lt_range _).imp
    intro a b hab
    have hab' : (a : Int) < (b : Int) := by exact_mod_cast hab
    omega
  have hkeyseq : (sortByNumber (numberedFeatures (restart_numbering s).layer)).map
      (fun p => p.2) =
      (List.range (numberedFeatures s.layer).length).map
        (fun j : Nat => (1 : Int) + (j : Int)) :=
    List.eq_of_perm_of_sorted hkeysS2perm hsorted1 hsorted2
  have hlen2 : (sortByNumber (numberedFeatures (restart_numbering s).layer)).length =
      (numberedFeatures s.layer).length := by
    rw [(sortByNumber_perm _).length_eq, numberedFeatures_restart s hnd, List.length_map]
  rw [restart_layer_eq (restart_numbering s) hnd']
  have hpt : ∀ f ∈ (restart_numbering s).layer,
      renumUpdate 1 (sortByNumber (numberedFeatures (restart_numbering s).layer)) f = f := by
    intro f hf
    unfold renumUpdate
    cases ht : targetVal 1 (sortByNumber (numberedFeatures (restart_numbering s).layer)) f.fid with
    | none => rfl
    | some w =>
      rcases targetVal_inv _ 1 f.fid w ht with ⟨j, p, hget, hfid, hw⟩
      have hpS2 : p ∈ sortByNumber (numberedFeatures (restart_numbering s).layer) :=
        List.get?_mem hget
      have hpX : p ∈ numberedFeatures (restart_numbering s).layer :=
        (sortByNumber_perm _).mem_iff.mp hpS2
      obtain ⟨hmem, hval, _⟩ := mem_numberedFeatures _ p hpX
      have hpf : p.1 = f := fid_inj _ hnd' p.1 f hmem hf hfid
      have hjlen : j < (numberedFeatures s.layer).length := by
        rcases List.get?_eq_some.mp hget with ⟨hh, _⟩
        rw [← hlen2]
        exact hh
      have hgetkeys : ((sortByNumber (numberedFeatures (restart_numbering s).layer)).map
          (fun p => p.2)).get? j = some p.2 := by
        rw [List.get?_map, hget]
        rfl
      rw [hkeyseq, List.get?_map, List.get?_range hjlen] at hgetkeys
      injection hgetkeys with hgetkeys
      have hgetkeys2 : (1 : Int) + (j : Int) = p.2 := hgetkeys
      have hpw : p.2 = w := by omega
      have hfw : f.value = some w := by
        rw [hpf] at hval
        rw [hval, hpw]
      exact feature_update_eq f (some w) hfw
  rw [List.map_congr_left hpt, List.map_id']

/-- C6 witness: a layer with a tie (5 and 5) and an unnumbered feature. -/
theorem restart_numbering_idempotent_witness :
    (restart_numbering (restart_numbering
      { layer := [{ fid := 0, value := some 5 }, { fid := 1, value := some 5 },
          { fid := 2, value := some 2 }, { fid := 3, value := none }],
        history := [], active := true })).layer =
    (restart_numbering
      { layer := [{ fid := 0, value := some 5 }, { fid := 1, value := some 5 },
          { fid := 2, value := some 2 }, { fid := 3, value := none }],
        history := [], active := true }).layer :=
  restart_numbering_idempotent
    { layer := [{ fid := 0, value := some 5 }, { fid := 1, value := some 5 },
        { fid := 2, value := some 2 }, { fid := 3, value := none }],
      history := [], active := true }
    (by decide)
